import Mathlib

/-!
Verification of the path-addressed partial-document merge engine
(`mergeInputs` in `scripts/cv_studios/studio_update.py`).

The Python function walks a path of string segments down a JSON-like
document (built from `json.loads`, so dictionaries have string keys),
creating lists and dicts along the way, and finally either merges the
fragment into the value at the target location (when that value is a
dict, via `dict.update`) or writes the fragment there wholesale.

The embedding below is a direct functional rendering of the imperative
loop: the loop's `prev`/`curr` aliased cursors amount to a structural
recursion on the path in which each step returns the rebuilt subtree and
the parent wires it back in at the segment's position.  Python errors
(`TypeError`/`ValueError` raised by `dict.update` on a non-mergeable
argument) are modelled with `Except`.  `str.isnumeric` is modelled as
"non-empty and all ASCII digits", matching the ASCII-path contract of
the data (paths arrive as ASCII strings from the RPC layer) and the
domain on which Python's `int()` conversion succeeds.
-/

/-- A JSON-like document value, the runtime universe `mergeInputs`
operates on: Python `None`, `bool`, numbers, `str`, `list`, and `dict`
with string keys (all documents here come from `json.loads`). -/
inductive Doc where
  | null : Doc
  | bool (b : Bool) : Doc
  | num (n : Int) : Doc
  | str (s : String) : Doc
  | arr (elems : List Doc) : Doc
  | obj (fields : List (String × Doc)) : Doc

/-- Model of Python `str.isnumeric` on the ASCII strings that carry path
segments: non-empty and consisting only of decimal digits. -/
def isNumericSeg (s : String) : Bool :=
  match s.data with
  | [] => false
  | l => l.all Char.isDigit

/-- Model of Python `int()` on an all-digit string: left-to-right
decimal accumulation. -/
def segToNat (s : String) : Nat :=
  s.data.foldl (fun n c => n * 10 + (c.toNat - 48)) 0

/-- Lookup in an insertion-ordered Python dict: value at the first
occurrence of the key. -/
def objGet : List (String × Doc) → String → Option Doc
  | [], _ => none
  | (k', v) :: rest, k => if k' = k then some v else objGet rest k

/-- Store into an insertion-ordered Python dict (`d[k] = v`): replace
the value at an existing key in place, otherwise append the new entry
at the end. -/
def objSet : List (String × Doc) → String → Doc → List (String × Doc)
  | [], k, v => [(k, v)]
  | (k', v') :: rest, k, v =>
      if k' = k then (k', v) :: rest else (k', v') :: objSet rest k v

/-- `d.update(other)` for a dict argument: `d[k] = v` for each pair of
`other` in order. -/
def objUpdate (kvs : List (String × Doc)) (fs : List (String × Doc)) :
    List (String × Doc) :=
  fs.foldl (fun acc kv => objSet acc kv.1 kv.2) kvs

/-- One element of a non-dict iterable passed to `dict.update`: Python
requires a 2-element sequence and a hashable key.  A 2-element list with
a string key yields that pair; a 2-character string yields its two
characters; a 2-entry dict yields its two keys (iterating a dict yields
keys); lists and dicts as keys are unhashable (`TypeError`); other
lengths raise `ValueError`; scalars are not iterable (`TypeError`).  A
2-element sequence whose key is a hashable non-string (null, bool,
number) would build a Python dict with a non-string key, which leaves
the JSON universe `Doc` models; it is flagged with a distinct error. -/
def pairOfElem : Doc → Except String (String × Doc)
  | .arr [.str k, v] => .ok (k, v)
  | .arr [.arr _, _] => .error "TypeError: unhashable type"
  | .arr [.obj _, _] => .error "TypeError: unhashable type"
  | .arr [_, v] => .error ((fun (_ : Doc) => "non-string key outside the JSON document universe") v)
  | .arr _ => .error "ValueError: update sequence element has bad length"
  | .str s =>
      match s.data with
      | [c0, c1] => .ok (String.mk [c0], .str (String.mk [c1]))
      | _ => .error "ValueError: update sequence element has bad length"
  | .obj [(k0, _), (k1, _)] => .ok (k0, .str k1)
  | .obj _ => .error "ValueError: update sequence element has bad length"
  | _ => .error "TypeError: cannot convert update sequence element"

/-- All elements of a list passed to `dict.update`, as key/value pairs;
the first bad element stops the conversion with its error. -/
def pairsOfElems : List Doc → Except String (List (String × Doc))
  | [] => .ok []
  | e :: es =>
      match pairOfElem e with
      | .ok kv =>
          match pairsOfElems es with
          | .ok kvs => .ok (kv :: kvs)
          | .error msg => .error msg
      | .error msg => .error msg

/-- Model of `curr.update(inputs)` at the end of the walk: a dict
argument merges key by key; a list argument is an iterable of pairs; a
non-empty string iterates into 1-character items of length 1
(`ValueError`), while the empty string iterates zero times and is a
no-op; `None`, booleans and numbers are not iterable (`TypeError`). -/
def dictUpdate (kvs : List (String × Doc)) (inputs : Doc) :
    Except String (List (String × Doc)) :=
  match inputs with
  | .obj fs => .ok (objUpdate kvs fs)
  | .arr es =>
      match pairsOfElems es with
      | .ok prs => .ok (objUpdate kvs prs)
      | .error msg => .error msg
  | .str s =>
      match s.data with
      | [] => .ok kvs
      | _ => .error "ValueError: update sequence element has bad length"
  | _ => .error "TypeError: update argument is not iterable"

/-- List growth step of the walk: when the index is past the end,
append `None` placeholders until the length is `i + 1` (lines 124-127 of
the source); otherwise the list is left alone. -/
def extendTo (l : List Doc) (i : Nat) : List Doc :=
  if l.length ≤ i then l ++ List.replicate (i + 1 - l.length) .null else l

/-- The list contents the walk works with after the conversion step of
a numeric segment: the current value's elements when it is a list, the
contents of the fresh empty list that replaces it otherwise. -/
def Doc.asList : Doc → List Doc
  | .arr l => l
  | _ => []

/-- The dict contents the walk works with after the conversion step of a
key segment: the current value's entries when it is a dict, the contents
of the fresh empty dict that replaces it otherwise. -/
def Doc.asObj : Doc → List (String × Doc)
  | .obj kvs => kvs
  | _ => []

/-- The merge engine (`mergeInputs`, studio_update.py lines 92-169),
rendered as structural recursion on the path.  A numeric segment forces
the current value to a list (discarding it if it is not one), grows the
list past the index, and recurses into the element there; a key segment
forces the current value to a dict, inserts a `None` at a missing key,
and recurses into the value there; the parent then stores the rebuilt
child back at the segment's position, exactly as the imperative
`prev[...] = ...` writes do.  With the path consumed, a dict at the
target is merged via `dict.update` and any other value is replaced by
the fragment. -/
def mergeInputs (root : Doc) (path : List String) (inputs : Doc) :
    Except String Doc :=
  match path with
  | [] =>
      match root with
      | .obj kvs =>
          match dictUpdate kvs inputs with
          | .ok res => .ok (.obj res)
          | .error msg => .error msg
      | _ => .ok inputs
  | seg :: rest =>
      if isNumericSeg seg then
        match mergeInputs ((extendTo root.asList (segToNat seg)).getD (segToNat seg) .null)
            rest inputs with
        | .ok child => .ok (.arr ((extendTo root.asList (segToNat seg)).set (segToNat seg) child))
        | .error msg => .error msg
      else
        match mergeInputs ((objGet root.asObj seg).getD .null) rest inputs with
        | .ok child => .ok (.obj (objSet root.asObj seg child))
        | .error msg => .error msg

/-- The value sitting at the target location once the walk has consumed
the whole path (the final `curr` of the source), including the effect of
the container conversions and placeholder insertions made on the way
down. -/
def targetVal (root : Doc) : List String → Doc
  | [] => root
  | seg :: rest =>
      if isNumericSeg seg then
        targetVal ((extendTo root.asList (segToNat seg)).getD (segToNat seg) .null) rest
      else
        targetVal ((objGet root.asObj seg).getD .null) rest

/-- Read the value back at a path: numeric segments index lists, other
segments look up dict keys; `none` when the shape does not match. -/
def getPath (d : Doc) : List String → Option Doc
  | [] => some d
  | seg :: rest =>
      if isNumericSeg seg then
        match d with
        | .arr l =>
            match l.get? (segToNat seg) with
            | some v => getPath v rest
            | none => none
        | _ => none
      else
        match d with
        | .obj kvs =>
            match objGet kvs seg with
            | some v => getPath v rest
            | none => none
        | _ => none

/-- Whether a document is a Python dict. -/
def Doc.isObj : Doc → Bool
  | .obj _ => true
  | _ => false

/-- Whether a document is a Python list. -/
def Doc.isArr : Doc → Bool
  | .arr _ => true
  | _ => false

/-- Folding a sequence of (path, fragment) pairs into an accumulated
document, in arrival order, exactly as `get_inputs` does with
`mergedinputs = mergeInputs(mergedinputs, path, split)`; an exception in
one merge aborts the stream. -/
def applyPairs (root : Doc) : List (List String × Doc) → Except String Doc
  | [] => .ok root
  | (p, f) :: rest =>
      match mergeInputs root p f with
      | .ok r => applyPairs r rest
      | .error msg => .error msg

/-- Well-formed documents: every dict anywhere inside has pairwise
distinct keys (as every real Python dict does). -/
inductive Doc.WF : Doc → Prop where
  | null : Doc.WF .null
  | bool (b : Bool) : Doc.WF (.bool b)
  | num (n : Int) : Doc.WF (.num n)
  | str (s : String) : Doc.WF (.str s)
  | arr (es : List Doc) : (∀ d ∈ es, Doc.WF d) → Doc.WF (.arr es)
  | obj (fs : List (String × Doc)) : (∀ kv ∈ fs, Doc.WF kv.2) →
      (fs.map Prod.fst).Nodup → Doc.WF (.obj fs)

/-- Top-level key distinctness of a fragment: trivial unless the
fragment is a dict, in which case its keys are pairwise distinct (true
of every real Python dict). -/
def fragKeysNodup : Doc → Prop
  | .obj fs => (fs.map Prod.fst).Nodup
  | _ => True

/-- The shape a successful merge leaves along its own path: every
position reached by a numeric segment is a list long enough for the
index, every position reached by a key segment is a dict containing the
key, down to the target. -/
def pathKinds (d : Doc) : List String → Prop
  | [] => True
  | seg :: rest =>
      if isNumericSeg seg then
        ∃ l, d = .arr l ∧ segToNat seg < l.length ∧
          pathKinds (l.getD (segToNat seg) .null) rest
      else
        ∃ kvs, d = .obj kvs ∧
          ∃ v, objGet kvs seg = some v ∧ pathKinds v rest

/-- The hypothesis of the frame property: every value the walk traverses
already has the container kind its segment requires, so no conversion
step fires.  Numeric segments require lists, key segments require dicts;
the target itself (empty remaining path) is unconstrained. -/
def kindOk (d : Doc) : List String → Prop
  | [] => True
  | seg :: rest =>
      if isNumericSeg seg then
        ∃ l, d = .arr l ∧
          kindOk ((extendTo l (segToNat seg)).getD (segToNat seg) .null) rest
      else
        ∃ kvs, d = .obj kvs ∧ kindOk ((objGet kvs seg).getD .null) rest

/-- The frame relation between the document before and after a merge
along the merge's path: at every traversed level the container kind is
preserved, every list entry other than the indexed one and below the old
length is unchanged, every dict key other than the traversed one maps to
its old value, and the relation continues between the old and new values
at the traversed position. -/
def frameRel (a b : Doc) : List String → Prop
  | [] => True
  | seg :: rest =>
      if isNumericSeg seg then
        ∃ l l2, a = .arr l ∧ b = .arr l2 ∧ l.length ≤ l2.length ∧
          (∀ j, j < l.length → j ≠ segToNat seg →
            l2.getD j .null = l.getD j .null) ∧
          frameRel ((extendTo l (segToNat seg)).getD (segToNat seg) .null)
            (l2.getD (segToNat seg) .null) rest
      else
        ∃ kvs kvs2, a = .obj kvs ∧ b = .obj kvs2 ∧
          (∀ k, k ≠ seg → objGet kvs2 k = objGet kvs k) ∧
          frameRel ((objGet kvs seg).getD .null)
            ((objGet kvs2 seg).getD .null) rest

example : mergeInputs .null ["3"] (.str "x")
    = .ok (.arr [.null, .null, .null, .str "x"]) := rfl

example : mergeInputs (.obj [("a", .obj [("b", .num 1)])]) ["a", "0"] (.str "y")
    = .ok (.obj [("a", .arr [.str "y"])]) := rfl

example : mergeInputs (.obj [("a", .obj [])]) ["a"] (.num 5)
    = .error "TypeError: update argument is not iterable" := rfl

example : mergeInputs (.obj [("x", .obj [("p", .num 1), ("q", .num 2)])]) ["x"]
      (.obj [("q", .num 99), ("r", .num 3)])
    = .ok (.obj [("x", .obj [("p", .num 1), ("q", .num 99), ("r", .num 3)])]) := rfl

/-! ### Association-list lemmas for the dict model -/

theorem objGet_objSet_self (kvs : List (String × Doc)) (k : String) (v : Doc) :
    objGet (objSet kvs k v) k = some v := by
  induction kvs with
  | nil => simp [objSet, objGet]
  | cons kv rest ih =>
      obtain ⟨k', v'⟩ := kv
      by_cases h : k' = k
      · simp [objSet, h, objGet]
      · simp [objSet, h, objGet, ih]

theorem objGet_objSet_ne (kvs : List (String × Doc)) {k k1 : String} (v : Doc)
    (hne : k1 ≠ k) : objGet (objSet kvs k v) k1 = objGet kvs k1 := by
  induction kvs with
  | nil => simp [objSet, objGet, Ne.symm hne]
  | cons kv rest ih =>
      obtain ⟨k', v'⟩ := kv
      by_cases h : k' = k
      · subst h
        simp [objSet, objGet, Ne.symm hne]
      · by_cases h1 : k' = k1 <;> simp [objSet, objGet, h, h1, hne, ih]

theorem objSet_objSet_self (kvs : List (String × Doc)) (k : String) (v w : Doc) :
    objSet (objSet kvs k v) k w = objSet kvs k w := by
  induction kvs with
  | nil => simp [objSet]
  | cons kv rest ih =>
      obtain ⟨k', v'⟩ := kv
      by_cases h : k' = k <;> simp [objSet, h, ih]

theorem objSet_eq_of_get {kvs : List (String × Doc)} {k : String} {v : Doc}
    (h : objGet kvs k = some v) : objSet kvs k v = kvs := by
  induction kvs with
  | nil => simp [objGet] at h
  | cons kv rest ih =>
      obtain ⟨k', v'⟩ := kv
      rw [objGet] at h
      by_cases hk : k' = k
      · rw [if_pos hk] at h
        injection h with h2
        subst h2
        simp [objSet, hk]
      · rw [if_neg hk] at h
        simp [objSet, hk, ih h]

theorem objSet_comm {kvs : List (String × Doc)} {k k1 : String} {v w : Doc}
    (hk : (objGet kvs k).isSome) (hne : k1 ≠ k) :
    objSet (objSet kvs k v) k1 w = objSet (objSet kvs k1 w) k v := by
  induction kvs with
  | nil => simp [objGet] at hk
  | cons kv rest ih =>
      obtain ⟨k', v'⟩ := kv
      by_cases h : k' = k
      · subst h
        simp [objSet, Ne.symm hne]
      · rw [objGet, if_neg h] at hk
        by_cases h1 : k' = k1
        · subst h1
          simp [objSet, h]
        · simp [objSet, h, h1, ih hk]

theorem objGet_isSome_objSet (kvs : List (String × Doc)) (k : String) (v : Doc) :
    (objGet (objSet kvs k v) k).isSome := by
  simp [objGet_objSet_self]

theorem objGet_isSome_objSet_mono {kvs : List (String × Doc)} {k1 : String}
    (k : String) (v : Doc) (h : (objGet kvs k1).isSome) :
    (objGet (objSet kvs k v) k1).isSome := by
  by_cases hk : k1 = k
  · subst hk; simp [objGet_objSet_self]
  · rwa [objGet_objSet_ne _ _ hk]

theorem objUpdate_nil (kvs : List (String × Doc)) : objUpdate kvs [] = kvs := rfl

theorem objUpdate_cons (kvs : List (String × Doc)) (kv : String × Doc)
    (P : List (String × Doc)) :
    objUpdate kvs (kv :: P) = objUpdate (objSet kvs kv.1 kv.2) P := rfl

theorem objGet_isSome_objUpdate_mono {k : String}
    (P : List (String × Doc)) :
    ∀ {kvs : List (String × Doc)}, (objGet kvs k).isSome →
      (objGet (objUpdate kvs P) k).isSome := by
  induction P with
  | nil => intro kvs h; simpa [objUpdate_nil] using h
  | cons kv P ih =>
      intro kvs h
      rw [objUpdate_cons]
      exact ih (objGet_isSome_objSet_mono _ _ h)

theorem objGet_objUpdate_of_not_mem {k : String} (P : List (String × Doc))
    (hP : ∀ kv ∈ P, kv.1 ≠ k) :
    ∀ kvs : List (String × Doc), objGet (objUpdate kvs P) k = objGet kvs k := by
  induction P with
  | nil => intro kvs; rfl
  | cons kv P ih =>
      intro kvs
      rw [objUpdate_cons, ih (fun kv h => hP kv (List.mem_cons_of_mem _ h)),
        objGet_objSet_ne _ _ (fun h => hP kv (List.mem_cons_self _ _) h.symm)]

theorem objUpdate_objSet_absorb {k : String} {v : Doc} (P : List (String × Doc)) :
    ∀ (X : List (String × Doc)), (objGet X k).isSome →
      (∃ kv ∈ P, kv.1 = k) →
      objUpdate (objSet X k v) P = objUpdate X P := by
  induction P with
  | nil =>
      intro X _ hmem
      obtain ⟨kv, hkv, _⟩ := hmem
      simp at hkv
  | cons kv1 P ih =>
      intro X hX hmem
      obtain ⟨k1, v1⟩ := kv1
      by_cases h : k1 = k
      · subst h
        rw [objUpdate_cons, objUpdate_cons]
        simp only
        rw [objSet_objSet_self]
      · rw [objUpdate_cons, objUpdate_cons]
        simp only
        rw [objSet_comm hX h]
        refine ih (objSet X k1 v1) (objGet_isSome_objSet_mono _ _ hX) ?_
        obtain ⟨kv, hkv, hkvk⟩ := hmem
        rcases List.mem_cons.1 hkv with heq | hP
        · exfalso
          apply h
          rw [← hkvk, heq]
        · exact ⟨kv, hP, hkvk⟩

theorem objUpdate_objUpdate_self (P : List (String × Doc)) :
    ∀ (D : List (String × Doc)), objUpdate (objUpdate D P) P = objUpdate D P := by
  induction P with
  | nil => intro D; rfl
  | cons kv P ih =>
      intro D
      obtain ⟨k, v⟩ := kv
      rw [objUpdate_cons, objUpdate_cons]
      simp only
      by_cases hmem : ∃ kv ∈ P, kv.1 = k
      · rw [objUpdate_objSet_absorb P (objUpdate (objSet D k v) P)
          (objGet_isSome_objUpdate_mono P (objGet_isSome_objSet _ _ _)) hmem]
        exact ih (objSet D k v)
      · have hget : objGet (objUpdate (objSet D k v) P) k = some v := by
          rw [objGet_objUpdate_of_not_mem P
            (fun kv hkv hk => hmem ⟨kv, hkv, hk⟩) (objSet D k v)]
          exact objGet_objSet_self _ _ _
        rw [objSet_eq_of_get hget]
        exact ih (objSet D k v)

theorem objUpdate_of_get_eq (P : List (String × Doc)) :
    ∀ (X : List (String × Doc)), (∀ kv ∈ P, objGet X kv.1 = some kv.2) →
      objUpdate X P = X := by
  induction P with
  | nil => intro X _; rfl
  | cons kv P ih =>
      intro X h
      rw [objUpdate_cons, objSet_eq_of_get (h kv (List.mem_cons_self _ _))]
      exact ih X (fun kv hkv => h kv (List.mem_cons_of_mem _ hkv))

theorem objGet_of_nodup_mem {F : List (String × Doc)} {k : String} {v : Doc}
    (hnd : (F.map Prod.fst).Nodup) (hm : (k, v) ∈ F) : objGet F k = some v := by
  induction F with
  | nil => simp at hm
  | cons kv F ih =>
      obtain ⟨k0, v0⟩ := kv
      rw [List.map_cons, List.nodup_cons] at hnd
      rcases List.mem_cons.1 hm with heq | hF
      · injection heq with h1 h2
        subst h1; subst h2
        simp [objGet]
      · have hk0 : k0 ≠ k := by
          intro h
          subst h
          exact hnd.1 (List.mem_map.2 ⟨(k0, v), hF, rfl⟩)
        rw [objGet, if_neg hk0]
        exact ih hnd.2 hF

theorem objUpdate_self_of_nodup {F : List (String × Doc)}
    (hnd : (F.map Prod.fst).Nodup) : objUpdate F F = F :=
  objUpdate_of_get_eq F F (fun kv hkv => by
    obtain ⟨k, v⟩ := kv
    exact objGet_of_nodup_mem hnd hkv)

/-! ### List lemmas for the list-growth step -/

theorem lt_length_extendTo (l : List Doc) (i : Nat) :
    i < (extendTo l i).length := by
  rw [extendTo]
  by_cases h : l.length ≤ i
  · rw [if_pos h, List.length_append, List.length_replicate]
    omega
  · rw [if_neg h]
    omega

theorem extendTo_of_lt {l : List Doc} {i : Nat} (h : i < l.length) :
    extendTo l i = l := by
  rw [extendTo, if_neg (by omega)]

theorem getD_extendTo_of_lt {l : List Doc} {j : Nat} (i : Nat)
    (h : j < l.length) : (extendTo l i).getD j .null = l.getD j .null := by
  rw [extendTo]
  by_cases hle : l.length ≤ i
  · rw [if_pos hle, List.getD_append _ _ _ _ h]
  · rw [if_neg hle]

theorem mem_extendTo {l : List Doc} {i : Nat} {d : Doc}
    (h : d ∈ extendTo l i) : d ∈ l ∨ d = .null := by
  rw [extendTo] at h
  by_cases hle : l.length ≤ i
  · rw [if_pos hle] at h
    rcases List.mem_append.1 h with h1 | h1
    · exact Or.inl h1
    · exact Or.inr (List.eq_of_mem_replicate h1)
  · rw [if_neg hle] at h
    exact Or.inl h

theorem getD_set_self {l : List Doc} {i : Nat} (v d : Doc)
    (h : i < l.length) : (l.set i v).getD i d = v := by
  rw [List.getD_eq_getElem?_getD, List.getElem?_set_self (by omega), Option.getD_some]

theorem getD_set_ne {l : List Doc} {i j : Nat} (v d : Doc)
    (h : j ≠ i) : (l.set i v).getD j d = l.getD j d := by
  rw [List.getD_eq_getElem?_getD, List.getElem?_set_ne (fun hh => h hh.symm),
    List.getD_eq_getElem?_getD]

/-! ### Unfolding lemmas for the walk -/

theorem mergeInputs_nil_obj (kvs : List (String × Doc)) (inputs : Doc) :
    mergeInputs (.obj kvs) [] inputs =
      match dictUpdate kvs inputs with
      | .ok res => .ok (.obj res)
      | .error msg => .error msg := rfl

theorem mergeInputs_nil_of_not_obj {root : Doc} (h : root.isObj = false)
    (inputs : Doc) : mergeInputs root [] inputs = .ok inputs := by
  cases root <;> first | rfl | simp [Doc.isObj] at h

theorem mergeInputs_cons_num {seg : String} (h : isNumericSeg seg = true)
    (root : Doc) (rest : List String) (inputs : Doc) :
    mergeInputs root (seg :: rest) inputs =
      match mergeInputs ((extendTo root.asList (segToNat seg)).getD (segToNat seg) .null)
          rest inputs with
      | .ok child =>
          .ok (.arr ((extendTo root.asList (segToNat seg)).set (segToNat seg) child))
      | .error msg => .error msg := by
  rw [mergeInputs, if_pos h]

theorem mergeInputs_cons_key {seg : String} (h : isNumericSeg seg = false)
    (root : Doc) (rest : List String) (inputs : Doc) :
    mergeInputs root (seg :: rest) inputs =
      match mergeInputs ((objGet root.asObj seg).getD .null) rest inputs with
      | .ok child => .ok (.obj (objSet root.asObj seg child))
      | .error msg => .error msg := by
  rw [mergeInputs, if_neg (by simp [h])]

theorem targetVal_cons_num {seg : String} (h : isNumericSeg seg = true)
    (root : Doc) (rest : List String) :
    targetVal root (seg :: rest) =
      targetVal ((extendTo root.asList (segToNat seg)).getD (segToNat seg) .null) rest := by
  rw [targetVal, if_pos h]

theorem targetVal_cons_key {seg : String} (h : isNumericSeg seg = false)
    (root : Doc) (rest : List String) :
    targetVal root (seg :: rest) =
      targetVal ((objGet root.asObj seg).getD .null) rest := by
  rw [targetVal, if_neg (by simp [h])]

/-! ### Structure of a successful merge -/

theorem mergeInputs_ok_readback (path : List String) :
    ∀ (root inputs r : Doc), mergeInputs root path inputs = .ok r →
      ∃ v, getPath r path = some v ∧
        mergeInputs (targetVal root path) [] inputs = .ok v := by
  induction path with
  | nil =>
      intro root inputs r h
      exact ⟨r, rfl, h⟩
  | cons seg rest ih =>
      intro root inputs r h
      by_cases hn : isNumericSeg seg = true
      · rw [mergeInputs_cons_num hn] at h
        cases hm : mergeInputs
            ((extendTo root.asList (segToNat seg)).getD (segToNat seg) .null)
            rest inputs with
        | ok child =>
            rw [hm] at h
            injection h with h
            subst h
            obtain ⟨v, hv1, hv2⟩ := ih _ _ _ hm
            refine ⟨v, ?_, ?_⟩
            · rw [getPath, if_pos hn]
              have hlt : segToNat seg <
                  (extendTo root.asList (segToNat seg)).length :=
                lt_length_extendTo _ _
              rw [List.get?_eq_getElem?, List.getElem?_set_self (by omega)]
              exact hv1
            · rw [targetVal_cons_num hn]
              exact hv2
        | error msg => rw [hm] at h; cases h
      · rw [mergeInputs_cons_key (by simpa using hn)] at h
        cases hm : mergeInputs ((objGet root.asObj seg).getD .null) rest inputs with
        | ok child =>
            rw [hm] at h
            injection h with h
            subst h
            obtain ⟨v, hv1, hv2⟩ := ih _ _ _ hm
            refine ⟨v, ?_, ?_⟩
            · rw [getPath, if_neg (by simpa using hn)]
              rw [objGet_objSet_self]
              exact hv1
            · rw [targetVal_cons_key (by simpa using hn)]
              exact hv2
        | error msg => rw [hm] at h; cases h

theorem mergeInputs_ok_of_cond (path : List String) :
    ∀ (root inputs : Doc),
      (targetVal root path).isObj = false ∨ inputs.isObj = true →
      ∃ r, mergeInputs root path inputs = .ok r := by
  induction path with
  | nil =>
      intro root inputs h
      cases hr : root.isObj with
      | false => exact ⟨inputs, mergeInputs_nil_of_not_obj hr inputs⟩
      | true =>
          cases root <;> simp [Doc.isObj] at hr
          case obj kvs =>
            rcases h with h | h
            · rw [targetVal] at h
              simp [Doc.isObj] at h
            · cases inputs <;> simp [Doc.isObj] at h
              case obj fs =>
                exact ⟨.obj (objUpdate kvs fs), rfl⟩
  | cons seg rest ih =>
      intro root inputs h
      by_cases hn : isNumericSeg seg = true
      · rw [targetVal_cons_num hn] at h
        obtain ⟨child, hc⟩ := ih _ inputs h
        refine ⟨.arr ((extendTo root.asList (segToNat seg)).set (segToNat seg) child), ?_⟩
        rw [mergeInputs_cons_num hn, hc]
      · rw [targetVal_cons_key (by simpa using hn)] at h
        obtain ⟨child, hc⟩ := ih _ inputs h
        refine ⟨.obj (objSet root.asObj seg child), ?_⟩
        rw [mergeInputs_cons_key (by simpa using hn), hc]

/-! ### Idempotence of re-applying a pair -/

theorem dictUpdate_idem {kvs res : List (String × Doc)} {inputs : Doc}
    (hnd : fragKeysNodup inputs)
    (h : dictUpdate kvs inputs = .ok res) : dictUpdate res inputs = .ok res := by
  cases inputs with
  | obj fs =>
      rw [dictUpdate] at h ⊢
      injection h with h
      subst h
      rw [objUpdate_objUpdate_self]
  | arr es =>
      rw [dictUpdate] at h ⊢
      cases hp : pairsOfElems es with
      | ok prs =>
          rw [hp] at h
          injection h with h
          subst h
          simp [objUpdate_objUpdate_self]
      | error msg => rw [hp] at h; cases h
  | str s =>
      rw [dictUpdate] at h ⊢
      cases hs : s.data with
      | nil => rfl
      | cons c cs => rw [hs] at h; cases h
  | null => cases h
  | bool b => cases h
  | num n => cases h

theorem mergeInputs_nil_idem {root inputs r : Doc}
    (hnd : fragKeysNodup inputs)
    (h : mergeInputs root [] inputs = .ok r) :
    mergeInputs r [] inputs = .ok r := by
  cases hro : root.isObj with
  | true =>
      cases root <;> simp [Doc.isObj] at hro
      case obj kvs =>
        rw [mergeInputs_nil_obj] at h
        cases hd : dictUpdate kvs inputs with
        | ok res =>
            rw [hd] at h
            injection h with h
            subst h
            rw [mergeInputs_nil_obj, dictUpdate_idem hnd hd]
        | error msg => rw [hd] at h; cases h
  | false =>
      rw [mergeInputs_nil_of_not_obj hro] at h
      injection h with h
      subst h
      cases hio : inputs.isObj with
      | false => exact mergeInputs_nil_of_not_obj hio inputs
      | true =>
          cases inputs <;> simp [Doc.isObj] at hio
          case obj fs =>
            simp [mergeInputs_nil_obj, dictUpdate,
              objUpdate_self_of_nodup hnd]

theorem mergeInputs_idem (path : List String) :
    ∀ (root inputs r : Doc), fragKeysNodup inputs →
      mergeInputs root path inputs = .ok r →
      mergeInputs r path inputs = .ok r := by
  induction path with
  | nil => intro root inputs r hnd h; exact mergeInputs_nil_idem hnd h
  | cons seg rest ih =>
      intro root inputs r hnd h
      by_cases hn : isNumericSeg seg = true
      · rw [mergeInputs_cons_num hn] at h
        cases hm : mergeInputs
            ((extendTo root.asList (segToNat seg)).getD (segToNat seg) .null)
            rest inputs with
        | ok child =>
            rw [hm] at h
            injection h with h
            subst h
            have hlt : segToNat seg <
                (extendTo root.asList (segToNat seg)).length :=
              lt_length_extendTo _ _
            rw [mergeInputs_cons_num hn]
            have hself : (Doc.arr ((extendTo root.asList (segToNat seg)).set
                (segToNat seg) child)).asList =
                (extendTo root.asList (segToNat seg)).set (segToNat seg) child := rfl
            rw [hself, extendTo_of_lt (by rw [List.length_set]; omega),
              getD_set_self _ _ hlt, ih _ _ _ hnd hm]
            simp [List.set_set]
        | error msg => rw [hm] at h; cases h
      · have hn' : isNumericSeg seg = false := by simpa using hn
        rw [mergeInputs_cons_key hn'] at h
        cases hm : mergeInputs ((objGet root.asObj seg).getD .null) rest inputs with
        | ok child =>
            rw [hm] at h
            injection h with h
            subst h
            rw [mergeInputs_cons_key hn']
            have hself : (Doc.obj (objSet root.asObj seg child)).asObj =
                objSet root.asObj seg child := rfl
            rw [hself, objGet_objSet_self, Option.getD_some, ih _ _ _ hnd hm]
            simp [objSet_objSet_self]
        | error msg => rw [hm] at h; cases h

/-! ### Well-formedness preservation -/

theorem Doc.WF_arr_elem {es : List Doc} (h : Doc.WF (.arr es)) :
    ∀ d ∈ es, Doc.WF d := by
  cases h with
  | arr es h => exact h

theorem Doc.WF_obj_val {fs : List (String × Doc)} (h : Doc.WF (.obj fs)) :
    ∀ kv ∈ fs, Doc.WF kv.2 := by
  cases h with
  | obj fs h _ => exact h

theorem Doc.WF_obj_nodup {fs : List (String × Doc)} (h : Doc.WF (.obj fs)) :
    (fs.map Prod.fst).Nodup := by
  cases h with
  | obj fs _ hnd => exact hnd

theorem mem_keys_objSet {kvs : List (String × Doc)} {k k1 : String} {v : Doc}
    (h : k1 ∈ (objSet kvs k v).map Prod.fst) :
    k1 ∈ kvs.map Prod.fst ∨ k1 = k := by
  induction kvs with
  | nil =>
      rw [objSet] at h
      simp at h
      exact Or.inr h
  | cons kv rest ih =>
      obtain ⟨k', v'⟩ := kv
      by_cases hk : k' = k
      · rw [objSet, if_pos hk, List.map_cons, List.mem_cons] at h
        rcases h with h | h
        · exact Or.inl (by rw [List.map_cons, List.mem_cons]; exact Or.inl h)
        · exact Or.inl (by rw [List.map_cons, List.mem_cons]; exact Or.inr h)
      · rw [objSet, if_neg hk, List.map_cons, List.mem_cons] at h
        rcases h with h | h
        · exact Or.inl (by rw [List.map_cons, List.mem_cons]; exact Or.inl h)
        · rcases ih h with h1 | h1
          · exact Or.inl (by rw [List.map_cons, List.mem_cons]; exact Or.inr h1)
          · exact Or.inr h1

theorem keys_objSet_nodup {kvs : List (String × Doc)} {k : String} {v : Doc}
    (h : (kvs.map Prod.fst).Nodup) :
    ((objSet kvs k v).map Prod.fst).Nodup := by
  induction kvs with
  | nil => simp [objSet]
  | cons kv rest ih =>
      obtain ⟨k', v'⟩ := kv
      rw [List.map_cons, List.nodup_cons] at h
      by_cases hk : k' = k
      · rw [objSet, if_pos hk, List.map_cons, List.nodup_cons]
        exact ⟨h.1, h.2⟩
      · rw [objSet, if_neg hk, List.map_cons, List.nodup_cons]
        refine ⟨fun hmem => ?_, ih h.2⟩
        rcases mem_keys_objSet hmem with h1 | h1
        · exact h.1 h1
        · exact hk h1

theorem objSet_val_cases {kvs : List (String × Doc)} {k : String} {v : Doc}
    {kv : String × Doc} (h : kv ∈ objSet kvs k v) : kv ∈ kvs ∨ kv.2 = v := by
  induction kvs with
  | nil =>
      simp [objSet] at h
      subst h
      exact Or.inr rfl
  | cons kv1 rest ih =>
      obtain ⟨k', v'⟩ := kv1
      by_cases hk : k' = k
      · rw [objSet, if_pos hk] at h
        rcases List.mem_cons.1 h with h1 | h1
        · subst h1; exact Or.inr rfl
        · exact Or.inl (List.mem_cons_of_mem _ h1)
      · rw [objSet, if_neg hk] at h
        rcases List.mem_cons.1 h with h1 | h1
        · subst h1; exact Or.inl (List.mem_cons_self _ _)
        · rcases ih h1 with h2 | h2
          · exact Or.inl (List.mem_cons_of_mem _ h2)
          · exact Or.inr h2

theorem objUpdate_wf (fs : List (String × Doc)) :
    ∀ (kvs : List (String × Doc)), (∀ kv ∈ kvs, Doc.WF kv.2) →
      (kvs.map Prod.fst).Nodup → (∀ kv ∈ fs, Doc.WF kv.2) →
      (∀ kv ∈ objUpdate kvs fs, Doc.WF kv.2) ∧
        ((objUpdate kvs fs).map Prod.fst).Nodup := by
  induction fs with
  | nil => intro kvs h1 h2 _; exact ⟨h1, h2⟩
  | cons kv fs ih =>
      intro kvs h1 h2 h3
      rw [objUpdate_cons]
      refine ih _ ?_ (keys_objSet_nodup h2)
        (fun kv1 hkv1 => h3 kv1 (List.mem_cons_of_mem _ hkv1))
      intro kv1 hkv1
      rcases objSet_val_cases hkv1 with h4 | h4
      · exact h1 kv1 h4
      · rw [h4]
        exact h3 kv (List.mem_cons_self _ _)

theorem objGet_val_mem {kvs : List (String × Doc)} {k : String} {v : Doc}
    (h : objGet kvs k = some v) : ∃ kv ∈ kvs, kv.2 = v := by
  induction kvs with
  | nil => cases h
  | cons kv rest ih =>
      obtain ⟨k', v'⟩ := kv
      rw [objGet] at h
      by_cases hk : k' = k
      · rw [if_pos hk] at h
        injection h with h
        exact ⟨(k', v'), List.mem_cons_self _ _, h⟩
      · rw [if_neg hk] at h
        obtain ⟨kv1, hkv1, hv⟩ := ih h
        exact ⟨kv1, List.mem_cons_of_mem _ hkv1, hv⟩

theorem pairOfElem_wf {e : Doc} {kv : String × Doc} (hwf : Doc.WF e)
    (h : pairOfElem e = .ok kv) : Doc.WF kv.2 := by
  cases e with
  | null => cases h
  | bool b => cases h
  | num n => cases h
  | str s =>
      rw [pairOfElem] at h
      rcases hs : s.data with _ | ⟨c0, _ | ⟨c1, _ | ⟨c2, cs⟩⟩⟩ <;> rw [hs] at h
      · cases h
      · cases h
      · injection h with h
        subst h
        exact Doc.WF.str _
      · cases h
  | arr l =>
      rcases l with _ | ⟨a, _ | ⟨b, _ | ⟨c, t⟩⟩⟩
      · cases h
      · cases a <;> cases h
      · cases a with
        | str k =>
            rw [pairOfElem] at h
            injection h with h
            subst h
            exact Doc.WF_arr_elem hwf b (by simp)
        | arr l1 => cases h
        | obj fs1 => cases h
        | null => cases h
        | bool b1 => cases h
        | num n1 => cases h
      · cases a <;> cases h
  | obj fs =>
      rcases fs with _ | ⟨⟨k0, v0⟩, _ | ⟨⟨k1, v1⟩, _ | ⟨p2, t⟩⟩⟩
      · cases h
      · cases h
      · rw [pairOfElem] at h
        injection h with h
        subst h
        exact Doc.WF.str _
      · cases h

theorem pairsOfElems_wf {es : List Doc} {P : List (String × Doc)}
    (hwf : ∀ d ∈ es, Doc.WF d) (h : pairsOfElems es = .ok P) :
    ∀ kv ∈ P, Doc.WF kv.2 := by
  induction es generalizing P with
  | nil =>
      rw [pairsOfElems] at h
      injection h with h
      subst h
      simp
  | cons e es ih =>
      rw [pairsOfElems] at h
      cases he : pairOfElem e with
      | ok kv0 =>
          rw [he] at h
          cases hes : pairsOfElems es with
          | ok P0 =>
              rw [hes] at h
              injection h with h
              subst h
              intro kv hkv
              rcases List.mem_cons.1 hkv with h1 | h1
              · subst h1
                exact pairOfElem_wf (hwf e (List.mem_cons_self _ _)) he
              · exact ih (fun d hd => hwf d (List.mem_cons_of_mem _ hd)) hes kv h1
          | error msg => rw [hes] at h; cases h
      | error msg => rw [he] at h; cases h

theorem dictUpdate_wf {kvs res : List (String × Doc)} {inputs : Doc}
    (hkv : ∀ kv ∈ kvs, Doc.WF kv.2) (hnd : (kvs.map Prod.fst).Nodup)
    (hwf : Doc.WF inputs) (h : dictUpdate kvs inputs = .ok res) :
    Doc.WF (.obj res) := by
  cases inputs with
  | obj fs =>
      rw [dictUpdate] at h
      injection h with h
      subst h
      obtain ⟨h1, h2⟩ := objUpdate_wf fs kvs hkv hnd (Doc.WF_obj_val hwf)
      exact Doc.WF.obj _ h1 h2
  | arr es =>
      rw [dictUpdate] at h
      cases hp : pairsOfElems es with
      | ok prs =>
          rw [hp] at h
          injection h with h
          subst h
          obtain ⟨h1, h2⟩ := objUpdate_wf prs kvs hkv hnd
            (pairsOfElems_wf (Doc.WF_arr_elem hwf) hp)
          exact Doc.WF.obj _ h1 h2
      | error msg => rw [hp] at h; cases h
  | str s =>
      rw [dictUpdate] at h
      cases hs : s.data with
      | nil =>
          rw [hs] at h
          injection h with h
          subst h
          exact Doc.WF.obj _ hkv hnd
      | cons c cs => rw [hs] at h; cases h
  | null => cases h
  | bool b => cases h
  | num n => cases h

theorem Doc.asList_wf {root : Doc} (h : Doc.WF root) :
    ∀ d ∈ root.asList, Doc.WF d := by
  cases root <;> simp [Doc.asList]
  case arr es => exact fun d hd => Doc.WF_arr_elem h d hd

theorem Doc.asObj_wf {root : Doc} (h : Doc.WF root) :
    (∀ kv ∈ root.asObj, Doc.WF kv.2) ∧ (root.asObj.map Prod.fst).Nodup := by
  cases root <;> simp [Doc.asObj]
  case obj fs =>
    exact ⟨fun k v hkv => Doc.WF_obj_val h (k, v) hkv, Doc.WF_obj_nodup h⟩

theorem wf_extendTo {l : List Doc} (hl : ∀ d ∈ l, Doc.WF d) (i : Nat) :
    ∀ d ∈ extendTo l i, Doc.WF d := by
  intro d hd
  rcases mem_extendTo hd with h | h
  · exact hl d h
  · rw [h]; exact Doc.WF.null

theorem wf_getD {l : List Doc} (hl : ∀ d ∈ l, Doc.WF d) (i : Nat) :
    Doc.WF (l.getD i .null) := by
  rw [List.getD_eq_getElem?_getD]
  cases hg : l[i]? with
  | none => exact Doc.WF.null
  | some v =>
      rw [Option.getD_some]
      exact hl v (List.getElem?_mem hg)

theorem wf_set {l : List Doc} {v : Doc} (hl : ∀ d ∈ l, Doc.WF d)
    (hv : Doc.WF v) (i : Nat) : ∀ d ∈ l.set i v, Doc.WF d := by
  intro d hd
  rcases List.mem_or_eq_of_mem_set hd with h | h
  · exact hl d h
  · rw [h]; exact hv

theorem wf_objGet_getD {kvs : List (String × Doc)}
    (hkv : ∀ kv ∈ kvs, Doc.WF kv.2) (k : String) :
    Doc.WF ((objGet kvs k).getD .null) := by
  cases hg : objGet kvs k with
  | none => exact Doc.WF.null
  | some v =>
      rw [Option.getD_some]
      obtain ⟨kv, hkv1, hv⟩ := objGet_val_mem hg
      rw [← hv]
      exact hkv kv hkv1

theorem mergeInputs_wf (path : List String) :
    ∀ (root inputs r : Doc), Doc.WF root → Doc.WF inputs →
      mergeInputs root path inputs = .ok r → Doc.WF r := by
  induction path with
  | nil =>
      intro root inputs r hroot hinp h
      cases hro : root.isObj with
      | false =>
          rw [mergeInputs_nil_of_not_obj hro] at h
          injection h with h
          subst h
          exact hinp
      | true =>
          cases root <;> simp [Doc.isObj] at hro
          case obj kvs =>
            rw [mergeInputs_nil_obj] at h
            cases hd : dictUpdate kvs inputs with
            | ok res =>
                rw [hd] at h
                injection h with h
                subst h
                exact dictUpdate_wf (Doc.WF_obj_val hroot)
                  (Doc.WF_obj_nodup hroot) hinp hd
            | error msg => rw [hd] at h; cases h
  | cons seg rest ih =>
      intro root inputs r hroot hinp h
      by_cases hn : isNumericSeg seg = true
      · rw [mergeInputs_cons_num hn] at h
        cases hm : mergeInputs
            ((extendTo root.asList (segToNat seg)).getD (segToNat seg) .null)
            rest inputs with
        | ok child =>
            rw [hm] at h
            injection h with h
            subst h
            have hext := wf_extendTo (Doc.asList_wf hroot) (segToNat seg)
            have hchild := ih _ inputs child (wf_getD hext _) hinp hm
            exact Doc.WF.arr _ (wf_set hext hchild _)
        | error msg => rw [hm] at h; cases h
      · rw [mergeInputs_cons_key (by simpa using hn)] at h
        cases hm : mergeInputs ((objGet root.asObj seg).getD .null) rest inputs with
        | ok child =>
            rw [hm] at h
            injection h with h
            subst h
            obtain ⟨hval, hnd⟩ := Doc.asObj_wf hroot
            have hchild := ih _ inputs child (wf_objGet_getD hval seg) hinp hm
            refine Doc.WF.obj _ ?_ (keys_objSet_nodup hnd)
            intro kv hkv
            rcases objSet_val_cases hkv with h1 | h1
            · exact hval kv h1
            · rw [h1]; exact hchild
        | error msg => rw [hm] at h; cases h

theorem applyPairs_wf (pairs : List (List String × Doc)) :
    ∀ (root r : Doc), Doc.WF root → (∀ pf ∈ pairs, Doc.WF pf.2) →
      applyPairs root pairs = .ok r → Doc.WF r := by
  induction pairs with
  | nil =>
      intro root r hroot _ h
      injection h with h
      subst h
      exact hroot
  | cons pf pairs ih =>
      intro root r hroot hfr h
      obtain ⟨p, f⟩ := pf
      rw [applyPairs] at h
      cases hm : mergeInputs root p f with
      | ok r1 =>
          rw [hm] at h
          exact ih _ _ (mergeInputs_wf p root f r1 hroot
              (hfr (p, f) (List.mem_cons_self _ _)) hm)
            (fun pf hpf => hfr pf (List.mem_cons_of_mem _ hpf)) h
      | error msg => rw [hm] at h; cases h

theorem mergeInputs_pathKinds (path : List String) :
    ∀ (root inputs r : Doc), mergeInputs root path inputs = .ok r →
      pathKinds r path := by
  induction path with
  | nil => intro root inputs r _; trivial
  | cons seg rest ih =>
      intro root inputs r h
      by_cases hn : isNumericSeg seg = true
      · rw [mergeInputs_cons_num hn] at h
        cases hm : mergeInputs
            ((extendTo root.asList (segToNat seg)).getD (segToNat seg) .null)
            rest inputs with
        | ok child =>
            rw [hm] at h
            injection h with h
            subst h
            rw [pathKinds, if_pos hn]
            have hlt : segToNat seg <
                (extendTo root.asList (segToNat seg)).length :=
              lt_length_extendTo _ _
            refine ⟨_, rfl, by rw [List.length_set]; omega, ?_⟩
            rw [getD_set_self _ _ hlt]
            exact ih _ _ _ hm
        | error msg => rw [hm] at h; cases h
      · rw [mergeInputs_cons_key (by simpa using hn)] at h
        cases hm : mergeInputs ((objGet root.asObj seg).getD .null) rest inputs with
        | ok child =>
            rw [hm] at h
            injection h with h
            subst h
            rw [pathKinds, if_neg (by simpa using hn)]
            exact ⟨_, rfl, child, objGet_objSet_self _ _ _, ih _ _ _ hm⟩
        | error msg => rw [hm] at h; cases h

/-! ### The frame property along a conversion-free path -/

theorem length_le_extendTo (l : List Doc) (i : Nat) :
    l.length ≤ (extendTo l i).length := by
  rw [extendTo]
  by_cases h : l.length ≤ i
  · rw [if_pos h, List.length_append]
    omega
  · rw [if_neg h]

theorem mergeInputs_frame (path : List String) :
    ∀ (root inputs r : Doc), kindOk root path →
      mergeInputs root path inputs = .ok r → frameRel root r path := by
  induction path with
  | nil => intro root inputs r _ _; trivial
  | cons seg rest ih =>
      intro root inputs r hkind h
      by_cases hn : isNumericSeg seg = true
      · rw [kindOk, if_pos hn] at hkind
        obtain ⟨l, rfl, hk⟩ := hkind
        rw [mergeInputs_cons_num hn] at h
        cases hm : mergeInputs
            ((extendTo (Doc.arr l).asList (segToNat seg)).getD (segToNat seg) .null)
            rest inputs with
        | ok child =>
            rw [hm] at h
            injection h with h
            subst h
            rw [frameRel, if_pos hn]
            have hself : (Doc.arr l).asList = l := rfl
            rw [hself] at hm
            have hlt : segToNat seg < (extendTo l (segToNat seg)).length :=
              lt_length_extendTo _ _
            refine ⟨l, (extendTo l (segToNat seg)).set (segToNat seg) child,
              rfl, rfl, ?_, ?_, ?_⟩
            · rw [List.length_set]
              exact length_le_extendTo _ _
            · intro j hj hne
              rw [getD_set_ne _ _ hne, getD_extendTo_of_lt _ hj]
            · rw [getD_set_self _ _ hlt]
              exact ih _ _ _ hk hm
        | error msg => rw [hm] at h; cases h
      · have hn' : isNumericSeg seg = false := by simpa using hn
        rw [kindOk, if_neg (by simp [hn'])] at hkind
        obtain ⟨kvs, rfl, hk⟩ := hkind
        rw [mergeInputs_cons_key hn'] at h
        cases hm : mergeInputs
            ((objGet (Doc.obj kvs).asObj seg).getD .null) rest inputs with
        | ok child =>
            rw [hm] at h
            injection h with h
            subst h
            rw [frameRel, if_neg (by simp [hn'])]
            have hself : (Doc.obj kvs).asObj = kvs := rfl
            rw [hself] at hm
            refine ⟨kvs, objSet kvs seg child, rfl, rfl, ?_, ?_⟩
            · intro k hne
              exact objGet_objSet_ne _ _ hne
            · rw [objGet_objSet_self, Option.getD_some]
              exact ih _ _ _ hk hm
        | error msg => rw [hm] at h; cases h

theorem Doc.asList_of_not_arr {d : Doc} (h : d.isArr = false) :
    d.asList = [] := by
  cases d <;> first | rfl | simp [Doc.isArr] at h

/-! ### The claims -/

/-- Claim C1, counterexample to the claim as stated.  The claim says the
fragment is merged only when both the target value and the fragment are
objects, and that otherwise the target is replaced wholesale; but the
source tests only `isinstance(curr, dict)`, so merging
`fragment = 5` into `{"a": {}}` at path `["a"]` calls
`{}.update(5)` and raises `TypeError` instead of producing
`{"a": 5}`. -/
theorem C1_counterexample :
    mergeInputs (.obj [("a", .obj [])]) ["a"] (.num 5)
        = .error "TypeError: update argument is not iterable" ∧
      mergeInputs (.obj [("a", .obj [])]) ["a"] (.num 5)
        ≠ .ok (.obj [("a", .num 5)]) := by
  refine ⟨rfl, fun h => ?_⟩
  have h2 : (Except.error "TypeError: update argument is not iterable" : Except String Doc)
      = .ok (.obj [("a", .num 5)]) := h
  cases h2

/-- Claim C1, amended: the merge condition at the target location tests
only the target value, not the fragment.  After a successful merge at a
non-empty path, reading back at the path yields exactly the fragment
when the target value (after traversal) was not an object, and the
`dict.update` result when it was. -/
theorem C1_theorem (root : Doc) (path : List String) (f r : Doc)
    (_hne : path ≠ []) (h : mergeInputs root path f = .ok r) :
    ∃ v, getPath r path = some v ∧
      ((targetVal root path).isObj = false ∧ v = f ∨
        ∃ kvs res, targetVal root path = .obj kvs ∧
          dictUpdate kvs f = .ok res ∧ v = .obj res) := by
  obtain ⟨v, hv1, hv2⟩ := mergeInputs_ok_readback path root f r h
  refine ⟨v, hv1, ?_⟩
  cases ht : (targetVal root path).isObj with
  | false =>
      rw [mergeInputs_nil_of_not_obj ht] at hv2
      injection hv2 with hv2
      exact Or.inl ⟨rfl, hv2.symm⟩
  | true =>
      cases htv : targetVal root path <;> rw [htv] at ht <;>
        simp [Doc.isObj] at ht
      case obj kvs =>
        rw [htv, mergeInputs_nil_obj] at hv2
        cases hd : dictUpdate kvs f with
        | ok res =>
            rw [hd] at hv2
            injection hv2 with hv2
            exact Or.inr ⟨kvs, res, rfl, hd, hv2.symm⟩
        | error msg => rw [hd] at hv2; cases hv2

/-- Claim C1, witness: the amended theorem applied at
`merge({"a": null}, ["a"], 7)`, whose target value is `null`, so the
read-back value is the fragment `7`. -/
theorem C1_witness :
    ∃ v, getPath (Doc.obj [("a", Doc.num 7)]) ["a"] = some v ∧
      ((targetVal (Doc.obj [("a", Doc.null)]) ["a"]).isObj = false ∧ v = Doc.num 7 ∨
        ∃ kvs res, targetVal (Doc.obj [("a", Doc.null)]) ["a"] = Doc.obj kvs ∧
          dictUpdate kvs (Doc.num 7) = .ok res ∧ v = Doc.obj res) :=
  C1_theorem (Doc.obj [("a", Doc.null)]) ["a"] (Doc.num 7)
    (Doc.obj [("a", Doc.num 7)]) (by simp) rfl

/-- Claim C2, counterexample to totality as stated: with the dict
`{"k": 1}` at the target location and the scalar fragment `7`,
`mergeInputs` raises `TypeError` from `dict.update` rather than
returning a document. -/
theorem C2_counterexample :
    mergeInputs (.obj [("b", .obj [("k", .num 1)])]) ["b"] (.num 7)
      = .error "TypeError: update argument is not iterable" := rfl

/-- Claim C2, amended: the merge returns normally whenever the value at
the target location is not a dict, or the fragment is a dict; the only
failures are `dict.update` rejections when a dict at the target meets a
non-mergeable fragment. -/
theorem C2_theorem (root : Doc) (path : List String) (f : Doc)
    (h : (targetVal root path).isObj = false ∨ f.isObj = true) :
    ∃ r, mergeInputs root path f = .ok r :=
  mergeInputs_ok_of_cond path root f h

/-- Claim C2, witness: the amended theorem applied at
`merge(unset, ["a"], 3)`, whose target value is `null`. -/
theorem C2_witness : ∃ r, mergeInputs .null ["a"] (.num 3) = .ok r :=
  C2_theorem .null ["a"] (.num 3) (Or.inl rfl)

/-- Claim C3, counterexample to the claim as stated: with an empty path,
an object root `{"x": 1}` and the non-object fragment `5`, the claim
says the fragment becomes the root, but the source unconditionally calls
`root.update(5)` because the root is a dict, raising `TypeError`. -/
theorem C3_counterexample :
    mergeInputs (.obj [("x", .num 1)]) [] (.num 5)
      = .error "TypeError: update argument is not iterable" := rfl

/-- Claim C3, amended: `merge(unset, [], fragment) = fragment` for every
fragment; with an empty path the fragment becomes the root whenever the
existing root is not an object, and is shallow-merged into the root by
`dict.update` whenever the root is an object (raising when the fragment
is not so mergeable). -/
theorem C3_theorem :
    (∀ f : Doc, mergeInputs .null [] f = .ok f) ∧
    (∀ (root f : Doc), root.isObj = false → mergeInputs root [] f = .ok f) ∧
    (∀ (kvs fs : List (String × Doc)),
      mergeInputs (.obj kvs) [] (.obj fs) = .ok (.obj (objUpdate kvs fs))) :=
  ⟨fun _ => rfl, fun _ f h => mergeInputs_nil_of_not_obj h f, fun _ _ => rfl⟩

/-- Claim C3, witness: the amended theorem applied on an unset root with
fragment `9`, on the non-object root `true` with fragment `"s"`, and on
the object root `{"p": 1}` with object fragment `{"q": 2}`. -/
theorem C3_witness :
    mergeInputs .null [] (.num 9) = .ok (.num 9) ∧
    mergeInputs (.bool true) [] (.str "s") = .ok (.str "s") ∧
    mergeInputs (.obj [("p", .num 1)]) [] (.obj [("q", .num 2)])
      = .ok (.obj [("p", .num 1), ("q", .num 2)]) :=
  ⟨C3_theorem.1 (.num 9), C3_theorem.2.1 (.bool true) (.str "s") rfl,
    C3_theorem.2.2 [("p", .num 1)] [("q", .num 2)]⟩

/-- Claim C4, confirmed: the list-growth step always leaves the target
index strictly inside the list, so the subsequent indexed access cannot
be out of range; and `merge(unset, ["3"], "x")` yields the 4-element
list `[null, null, null, "x"]`. -/
theorem C4_theorem :
    (∀ (l : List Doc) (i : Nat), i < (extendTo l i).length) ∧
    mergeInputs .null ["3"] (.str "x")
      = .ok (.arr [.null, .null, .null, .str "x"]) :=
  ⟨lt_length_extendTo, rfl⟩

/-- Claim C5, confirmed: when the value under key `"a"` is not a list
and the next segment is the index `"0"`, the old value is discarded and
replaced by a fresh list, so
`merge({"a": {"b": 1}}, ["a", "0"], "y")` yields `{"a": ["y"]}`. -/
theorem C5_theorem :
    (∀ (kvs : List (String × Doc)) (v f : Doc), objGet kvs "a" = some v →
      v.isArr = false →
      mergeInputs (.obj kvs) ["a", "0"] f
        = .ok (.obj (objSet kvs "a" (.arr [f])))) ∧
    mergeInputs (.obj [("a", .obj [("b", .num 1)])]) ["a", "0"] (.str "y")
      = .ok (.obj [("a", .arr [.str "y"])]) := by
  constructor
  · intro kvs v f hget hvarr
    rw [mergeInputs_cons_key (by decide)]
    have hobj : (Doc.obj kvs).asObj = kvs := rfl
    rw [hobj, hget, Option.getD_some]
    rw [mergeInputs_cons_num (by decide)]
    rw [Doc.asList_of_not_arr hvarr]
    rw [show segToNat "0" = 0 by decide]
    rw [show extendTo ([] : List Doc) 0 = [.null] from rfl]
    rw [show ([Doc.null].getD 0 .null) = .null from rfl]
    rw [show mergeInputs .null [] f = .ok f from rfl]
    rfl
  · rfl

/-- Claim C5, witness: the general statement applied at the spec's own
example, discharging the lookup and non-list hypotheses at
`{"a": {"b": 1}}`. -/
theorem C5_witness :
    mergeInputs (.obj [("a", .obj [("b", .num 1)])]) ["a", "0"] (.str "y")
      = .ok (.obj (objSet [("a", .obj [("b", .num 1)])] "a" (.arr [.str "y"]))) :=
  C5_theorem.1 [("a", .obj [("b", .num 1)])] (.obj [("b", .num 1)]) (.str "y")
    rfl rfl

/-- Claim C6, confirmed: applying `(["a"], 1)` then `(["a"], 2)` to an
unset root yields `{"a": 2}`, and the reversed order yields `{"a": 1}`;
the later write at the same path wins. -/
theorem C6_theorem :
    applyPairs .null [(["a"], .num 1), (["a"], .num 2)]
        = .ok (.obj [("a", .num 2)]) ∧
      applyPairs .null [(["a"], .num 2), (["a"], .num 1)]
        = .ok (.obj [("a", .num 1)]) :=
  ⟨rfl, rfl⟩

/-- Claim C7, confirmed: re-applying the identical (path, fragment) pair
to the result of a successful merge returns that result unchanged (the
fragment's top-level keys are pairwise distinct, as in every real Python
dict). -/
theorem C7_theorem (root : Doc) (path : List String) (inputs r : Doc)
    (hnd : fragKeysNodup inputs) (h : mergeInputs root path inputs = .ok r) :
    mergeInputs r path inputs = .ok r :=
  mergeInputs_idem path root inputs r hnd h

/-- Claim C7, witness: re-applying `(["a"], {"x": 1})` to the result of
applying it to an unset root returns the same document. -/
theorem C7_witness :
    mergeInputs (.obj [("a", .obj [("x", .num 1)])]) ["a"] (.obj [("x", .num 1)])
      = .ok (.obj [("a", .obj [("x", .num 1)])]) :=
  C7_theorem .null ["a"] (.obj [("x", .num 1)])
    (.obj [("a", .obj [("x", .num 1)])])
    (by simp only [fragKeysNodup]; decide) rfl

/-- Claim C8, confirmed: folding any sequence of (path, fragment) pairs
with well-formed fragments from an unset root yields a well-formed
document whenever it returns one, and each single successful merge
leaves every position along its path with the container kind its segment
requires (lists long enough for index segments, dicts containing the key
for key segments). -/
theorem C8_theorem :
    (∀ (pairs : List (List String × Doc)) (r : Doc),
      (∀ pf ∈ pairs, Doc.WF pf.2) → applyPairs .null pairs = .ok r →
        Doc.WF r) ∧
    (∀ (root : Doc) (path : List String) (inputs r : Doc),
      mergeInputs root path inputs = .ok r → pathKinds r path) :=
  ⟨fun pairs r h1 h2 => applyPairs_wf pairs .null r Doc.WF.null h1 h2,
    fun root path inputs r h => mergeInputs_pathKinds path root inputs r h⟩

/-- Claim C8, witness: the invariant applied to the one-pair sequence
`[(["a"], 1)]` and the kind property applied to `merge(unset, ["b"], 2)`. -/
theorem C8_witness :
    Doc.WF (Doc.obj [("a", Doc.num 1)]) ∧
      pathKinds (Doc.obj [("b", Doc.num 2)]) ["b"] :=
  ⟨C8_theorem.1 [(["a"], Doc.num 1)] (Doc.obj [("a", Doc.num 1)])
      (by
        intro pf hpf
        rw [List.mem_singleton] at hpf
        subst hpf
        exact Doc.WF.num 1) rfl,
    C8_theorem.2 .null ["b"] (Doc.num 2) (Doc.obj [("b", Doc.num 2)]) rfl⟩

/-- Claim C9, confirmed: two consecutive index segments with no key
segment between them work as described — the parent reached via a
numeric segment has its element replaced by a fresh empty list — so
`merge(unset, ["0", "0"], f)` yields `[[f]]` for every fragment, and
likewise when the outer list exists but its element is not a list. -/
theorem C9_theorem :
    (∀ f : Doc, mergeInputs .null ["0", "0"] f = .ok (.arr [.arr [f]])) ∧
    (∀ (d f : Doc), d.isArr = false →
      mergeInputs (.arr [d]) ["0", "0"] f = .ok (.arr [.arr [f]])) := by
  constructor
  · intro f
    rfl
  · intro d f hd
    rw [mergeInputs_cons_num (by decide)]
    rw [show (Doc.arr [d]).asList = [d] from rfl]
    rw [show segToNat "0" = 0 by decide]
    rw [show extendTo [d] 0 = [d] from rfl]
    rw [show ([d].getD 0 .null) = d from rfl]
    rw [mergeInputs_cons_num (by decide)]
    rw [Doc.asList_of_not_arr hd]
    rw [show segToNat "0" = 0 by decide]
    rw [show extendTo ([] : List Doc) 0 = [.null] from rfl]
    rw [show ([Doc.null].getD 0 .null) = .null from rfl]
    rw [show mergeInputs .null [] f = .ok f from rfl]
    rfl

/-- Claim C9, witness: the second part applied with the non-list element
`3` sitting at index 0 of the outer list. -/
theorem C9_witness :
    mergeInputs (.arr [.num 3]) ["0", "0"] (.str "z")
      = .ok (.arr [.arr [.str "z"]]) :=
  C9_theorem.2 (.num 3) (.str "z") rfl

/-- Claim C10, confirmed: when every traversed container already has the
kind its segment requires, a successful merge changes nothing off the
traversed path — at every level the container kind is kept, list entries
at other indices keep their values, and dict keys other than the
traversed one keep their values. -/
theorem C10_theorem (root : Doc) (path : List String) (inputs r : Doc)
    (_hne : path ≠ []) (hkind : kindOk root path)
    (h : mergeInputs root path inputs = .ok r) : frameRel root r path :=
  mergeInputs_frame path root inputs r hkind h

/-- Claim C10, witness: the frame property applied at
`merge({"a": 1, "b": 2}, ["a"], 9)`, whose traversal touches only the
dict root, leaving the sibling key `"b"` untouched. -/
theorem C10_witness :
    frameRel (Doc.obj [("a", Doc.num 1), ("b", Doc.num 2)])
      (Doc.obj [("a", Doc.num 9), ("b", Doc.num 2)]) ["a"] :=
  C10_theorem (Doc.obj [("a", Doc.num 1), ("b", Doc.num 2)]) ["a"]
    (Doc.num 9) (Doc.obj [("a", Doc.num 9), ("b", Doc.num 2)])
    (by simp)
    (by
      rw [kindOk, if_neg (by decide)]
      exact ⟨_, rfl, trivial⟩) rfl
